import Mathlib

/-!
Verification of the document chunking and reassembly utility (`comst.py`).

The embedding models, faithfully to the source:
  * `strFind`          — Python's `str.find(sub, start)` over `List Char`;
  * `extract_section`  — the section segmenter;
  * `generate_split_ranges` — the page-range partitioner;
  * `recommend_split_count_advanced` — the split-count recommender
    (exact rational arithmetic in place of Python floats);
  * `call_api_until_success` — the digitization client's retry loop, as a
    function of a response oracle, recording an event trace;
  * `merge_jsons`      — the fragment merger over an abstract directory
    listing (filename plus the optional `content.html` payload).
-/

/-- Search `s` for `pat` at positions `j, j+1, ...`, trying `fuel` positions;
returns the first position where `pat` is a prefix of the rest of `s`.
Helper for `strFind`. -/
def findFrom (s pat : List Char) : Nat → Nat → Option Nat
  | _, 0 => none
  | j, fuel + 1 =>
    if pat.isPrefixOf (s.drop j) then some j else findFrom s pat (j + 1) fuel

/-- Python's `s.find(pat, start)`: the least index `i ≥ start` at which `pat`
occurs in `s` (`none` for Python's `-1`).  Positions `start, ..., s.length`
are tried, matching Python (the empty pattern occurs at every position up to
and including `s.length`). -/
def strFind (s pat : List Char) (start : Nat) : Option Nat :=
  findFrom s pat start (s.length + 1 - start)

/-- `pat` occurs in `html` at index `j`. -/
def occursAt (html pat : List Char) (j : Nat) : Prop :=
  j ≤ html.length ∧ pat.isPrefixOf (html.drop j) = true

instance (html pat : List Char) (j : Nat) : Decidable (occursAt html pat j) := by
  unfold occursAt; infer_instance

/-- The section segmenter of the source (`extract_section`), parameterized by
the merged html text and the ordered marker catalog: `start_idx` is the first
occurrence of the requested title; `next_sections` collects, for every catalog
marker, its first occurrence from `start_idx + 1`; `end_idx` is their minimum
(or the text length when there is none); the section is the slice
`html[start_idx:end_idx]`. -/
def extract_section (html : List Char) (sections : List (List Char))
    (section_title : List Char) : Option (List Char) :=
  match strFind html section_title 0 with
  | none => none
  | some start_idx =>
    let next_sections := sections.filterMap fun s => strFind html s (start_idx + 1)
    let end_idx := match next_sections with
      | [] => html.length
      | n :: ns => ns.foldl Nat.min n
    some ((html.drop start_idx).take (end_idx - start_idx))

theorem findFrom_eq_some {s pat : List Char} {fuel : Nat} :
    ∀ {j i : Nat}, findFrom s pat j fuel = some i →
      j ≤ i ∧ i < j + fuel ∧ pat.isPrefixOf (s.drop i) = true ∧
        ∀ k, j ≤ k → k < i → pat.isPrefixOf (s.drop k) = false := by
  induction fuel with
  | zero => intro j i h; simp [findFrom] at h
  | succ n ih =>
    intro j i h
    rw [findFrom] at h
    split at h
    · rename_i hp
      cases h
      exact ⟨Nat.le_refl _, by omega, hp, fun k hk1 hk2 => by omega⟩
    · rename_i hp
      obtain ⟨h1, h2, h3, h4⟩ := ih h
      refine ⟨by omega, by omega, h3, fun k hk1 hk2 => ?_⟩
      rcases Nat.eq_or_lt_of_le hk1 with heq | hlt
      · subst heq; exact Bool.eq_false_iff.mpr hp
      · exact h4 k hlt hk2

theorem findFrom_eq_none {s pat : List Char} {fuel : Nat} :
    ∀ {j : Nat}, findFrom s pat j fuel = none →
      ∀ k, j ≤ k → k < j + fuel → pat.isPrefixOf (s.drop k) = false := by
  induction fuel with
  | zero => intro j _ k hk1 hk2; omega
  | succ n ih =>
    intro j h k hk1 hk2
    rw [findFrom] at h
    split at h
    · exact absurd h (by simp)
    · rename_i hp
      rcases Nat.eq_or_lt_of_le hk1 with heq | hlt
      · subst heq; exact Bool.eq_false_iff.mpr hp
      · exact ih h k hlt (by omega)

theorem findFrom_isSome {s pat : List Char} {fuel : Nat} :
    ∀ {j k : Nat}, j ≤ k → k < j + fuel → pat.isPrefixOf (s.drop k) = true →
      ∃ i, findFrom s pat j fuel = some i ∧ i ≤ k := by
  induction fuel with
  | zero => intro j k hk1 hk2; omega
  | succ n ih =>
    intro j k hk1 hk2 hp
    rw [findFrom]
    by_cases hj : pat.isPrefixOf (s.drop j) = true
    · exact ⟨j, by simp [hj], hk1⟩
    · have hjk : j + 1 ≤ k := by
        rcases Nat.eq_or_lt_of_le hk1 with heq | hlt
        · subst heq; exact absurd hp hj
        · omega
      obtain ⟨i, hi, hik⟩ := ih hjk (by omega) hp
      exact ⟨i, by simp [hj, hi], hik⟩

theorem strFind_eq_some {s pat : List Char} {start i : Nat}
    (h : strFind s pat start = some i) :
    start ≤ i ∧ occursAt s pat i ∧ ∀ k, start ≤ k → k < i → ¬ occursAt s pat k := by
  unfold strFind at h
  obtain ⟨h1, h2, h3, h4⟩ := findFrom_eq_some h
  have hstart : start ≤ s.length := by
    by_contra hc
    have : s.length + 1 - start = 0 := by omega
    rw [this] at h; simp [findFrom] at h
  refine ⟨h1, ⟨by omega, h3⟩, fun k hk1 hk2 hocc => ?_⟩
  have := h4 k hk1 hk2
  rw [hocc.2] at this
  exact absurd this (by simp)

theorem strFind_eq_none {s pat : List Char} {start : Nat}
    (h : strFind s pat start = none) :
    ∀ k, start ≤ k → ¬ occursAt s pat k := by
  intro k hk hocc
  unfold strFind at h
  by_cases hstart : start ≤ s.length
  · have := findFrom_eq_none h k hk (by have := hocc.1; omega)
    rw [hocc.2] at this
    exact absurd this (by simp)
  · have := hocc.1; omega

theorem strFind_min {s pat : List Char} {start k : Nat}
    (hk : start ≤ k) (hocc : occursAt s pat k) :
    ∃ i, strFind s pat start = some i ∧ i ≤ k := by
  unfold strFind
  exact findFrom_isSome hk (by have := hocc.1; omega) hocc.2

theorem natMin_ite (n m : Nat) : Nat.min n m = if n ≤ m then n else m := rfl

/-- The result of folding `Nat.min` over a list is the seed or a member. -/
theorem foldl_min_choice (ns : List Nat) : ∀ n : Nat,
    ns.foldl Nat.min n = n ∨ ns.foldl Nat.min n ∈ ns := by
  induction ns with
  | nil => intro n; left; rfl
  | cons m ms ih =>
    intro n
    rcases ih (Nat.min n m) with h | h
    · rcases Nat.le_total n m with hle | hle
      · left; rw [List.foldl_cons, h, natMin_ite]; simp [hle]
      · right
        have hm : Nat.min n m = m := by rw [natMin_ite]; split <;> omega
        rw [List.foldl_cons, h, hm]
        exact List.mem_cons_self _ _
    · right; exact List.mem_cons_of_mem _ h

/-- Folding `Nat.min` is a lower bound on the seed and every member. -/
theorem foldl_min_le (ns : List Nat) : ∀ n : Nat,
    ns.foldl Nat.min n ≤ n ∧ ∀ m ∈ ns, ns.foldl Nat.min n ≤ m := by
  induction ns with
  | nil => intro n; exact ⟨Nat.le_refl _, by simp⟩
  | cons m ms ih =>
    intro n
    obtain ⟨h1, h2⟩ := ih (Nat.min n m)
    refine ⟨Nat.le_trans h1 (Nat.min_le_left _ _), fun x hx => ?_⟩
    rcases List.mem_cons.mp hx with rfl | hx
    · exact Nat.le_trans h1 (Nat.min_le_right _ _)
    · exact h2 x hx

/-- The claim's characterization of the section's end index: either no catalog
marker occurs at offset `start_idx + 1` or later and the end is the text
length, or the end is the least offset `≥ start_idx + 1` at which some catalog
marker occurs. -/
def isSectionEnd (html : List Char) (sections : List (List Char))
    (start_idx e : Nat) : Prop :=
  ((∀ s ∈ sections, ∀ j, start_idx + 1 ≤ j → ¬ occursAt html s j) ∧ e = html.length)
  ∨ ((∃ s ∈ sections, start_idx + 1 ≤ e ∧ occursAt html s e)
     ∧ ∀ s ∈ sections, ∀ j, start_idx + 1 ≤ j → occursAt html s j → e ≤ j)

/-- The end index computed inside `extract_section`: the minimum of the
catalog markers' first occurrences from `start_idx + 1`, or the text length
when there is none. -/
def sectionEndIdx (html : List Char) (sections : List (List Char))
    (start_idx : Nat) : Nat :=
  match sections.filterMap fun s => strFind html s (start_idx + 1) with
  | [] => html.length
  | n :: ns => ns.foldl Nat.min n

theorem extract_section_eq_none {html m : List Char} (catalog : List (List Char))
    (hfind : strFind html m 0 = none) :
    extract_section html catalog m = none := by
  unfold extract_section
  rw [hfind]

theorem extract_section_eq {html m : List Char} (catalog : List (List Char))
    {start_idx : Nat} (hfind : strFind html m 0 = some start_idx) :
    extract_section html catalog m
      = some ((html.drop start_idx).take
          (sectionEndIdx html catalog start_idx - start_idx)) := by
  unfold extract_section sectionEndIdx
  rw [hfind]

theorem sectionEndIdx_isSectionEnd (html : List Char) (catalog : List (List Char))
    (start_idx : Nat) :
    isSectionEnd html catalog start_idx (sectionEndIdx html catalog start_idx) := by
  unfold sectionEndIdx
  cases hns : catalog.filterMap (fun s => strFind html s (start_idx + 1)) with
  | nil =>
    left
    refine ⟨fun s hs j hj hocc => ?_, rfl⟩
    have hnone : strFind html s (start_idx + 1) = none :=
      List.filterMap_eq_nil_iff.mp hns s hs
    exact strFind_eq_none hnone j hj hocc
  | cons n ns =>
    right
    have hmem : (ns.foldl Nat.min n) ∈ n :: ns := by
      rcases foldl_min_choice ns n with h | h
      · rw [h]; exact List.mem_cons_self _ _
      · exact List.mem_cons_of_mem _ h
    rw [← hns] at hmem
    obtain ⟨s, hs, hfind⟩ := List.mem_filterMap.mp hmem
    obtain ⟨hge, hocc, _⟩ := strFind_eq_some hfind
    refine ⟨⟨s, hs, hge, hocc⟩, fun t ht j hj hjocc => ?_⟩
    obtain ⟨i, hi, hile⟩ := strFind_min hj hjocc
    have himem : i ∈ n :: ns := by
      rw [← hns]; exact List.mem_filterMap.mpr ⟨t, ht, hi⟩
    rcases List.mem_cons.mp himem with rfl | hmem2
    · exact Nat.le_trans (foldl_min_le ns i).1 hile
    · exact Nat.le_trans ((foldl_min_le ns n).2 i hmem2) hile

theorem sectionEndIdx_ge {html : List Char} {catalog : List (List Char)}
    {start_idx : Nat} (hlt : start_idx < html.length) :
    start_idx + 1 ≤ sectionEndIdx html catalog start_idx := by
  rcases sectionEndIdx_isSectionEnd html catalog start_idx with ⟨_, he⟩ | ⟨⟨_, _, hge, _⟩, _⟩
  · omega
  · exact hge

/-- C1: the section segmenter `extract_section`, for a requested marker `m`:
if `m` does not occur in the html the result is `none`; otherwise, with
`start_idx` the offset of the first occurrence of `m`, the result is the slice
of the html from `start_idx` to the minimum over all catalog markers' next
occurrence at offset `start_idx + 1` or later (the text length when no marker
occurs there).  On `"X<h1>One</h1>body1<h1>Two</h1>body2"` with catalog
`["<h1>One</h1>", "<h1>Two</h1>"]`, the two extractions give exactly
`"<h1>One</h1>body1"` and `"<h1>Two</h1>body2"`. -/
theorem extract_section_segments (html : List Char) (catalog : List (List Char))
    (m : List Char) :
    (extract_section html catalog m = none ↔ ∀ j, ¬ occursAt html m j)
  ∧ (∀ start_idx,
      occursAt html m start_idx → (∀ k, k < start_idx → ¬ occursAt html m k) →
      ∃ e, isSectionEnd html catalog start_idx e
        ∧ extract_section html catalog m
            = some ((html.drop start_idx).take (e - start_idx)))
  ∧ extract_section "X<h1>One</h1>body1<h1>Two</h1>body2".toList
      ["<h1>One</h1>".toList, "<h1>Two</h1>".toList] "<h1>One</h1>".toList
      = some "<h1>One</h1>body1".toList
  ∧ extract_section "X<h1>One</h1>body1<h1>Two</h1>body2".toList
      ["<h1>One</h1>".toList, "<h1>Two</h1>".toList] "<h1>Two</h1>".toList
      = some "<h1>Two</h1>body2".toList := by
  refine ⟨⟨?_, ?_⟩, ?_, by decide, by decide⟩
  · intro h j hocc
    cases hfind : strFind html m 0 with
    | none => exact strFind_eq_none hfind j (Nat.zero_le j) hocc
    | some s =>
      rw [extract_section_eq catalog hfind] at h
      exact absurd h (by simp)
  · intro hno
    cases hfind : strFind html m 0 with
    | none => exact extract_section_eq_none catalog hfind
    | some s => exact absurd (strFind_eq_some hfind).2.1 (hno s)
  · intro start_idx hocc hmin
    have hfind : strFind html m 0 = some start_idx := by
      obtain ⟨i, hi, hile⟩ := strFind_min (Nat.zero_le start_idx) hocc
      obtain ⟨_, hiocc, _⟩ := strFind_eq_some hi
      have heq : i = start_idx := by
        rcases Nat.eq_or_lt_of_le hile with heq | hlt
        · exact heq
        · exact absurd hiocc (hmin i hlt)
      rw [← heq]; exact hi
    exact ⟨sectionEndIdx html catalog start_idx,
      sectionEndIdx_isSectionEnd html catalog start_idx,
      extract_section_eq catalog hfind⟩

/-- Witness for C1: instantiating the segmentation theorem on the claim's own
example, with the first-occurrence hypotheses discharged by evaluation. -/
theorem extract_section_segments_w :
    ∃ e, isSectionEnd "X<h1>One</h1>body1<h1>Two</h1>body2".toList
        ["<h1>One</h1>".toList, "<h1>Two</h1>".toList] 1 e
      ∧ extract_section "X<h1>One</h1>body1<h1>Two</h1>body2".toList
          ["<h1>One</h1>".toList, "<h1>Two</h1>".toList] "<h1>One</h1>".toList
          = some (("X<h1>One</h1>body1<h1>Two</h1>body2".toList.drop 1).take (e - 1)) :=
  (extract_section_segments "X<h1>One</h1>body1<h1>Two</h1>body2".toList
      ["<h1>One</h1>".toList, "<h1>Two</h1>".toList] "<h1>One</h1>".toList).2.1
    1 (by decide) (by decide)

/-- C10 counterexample: in Python the empty marker "occurs" in the empty html
(`"".find("") == 0`), yet the extracted section is the empty string — so the
returned slice is not always non-empty for every marker that occurs. -/
theorem extract_section_empty_cex :
    occursAt [] [] 0
    ∧ extract_section ([] : List Char) [[]] [] = some []
    ∧ ¬ (∀ body, extract_section ([] : List Char) [[]] [] = some body
          → 1 ≤ body.length) := by
  refine ⟨⟨Nat.le_refl _, rfl⟩, rfl, fun h => ?_⟩
  have := h [] rfl
  simp at this

/-- C10 (amended): for every non-empty html text and every marker that occurs
in it, `extract_section` returns a slice of length at least 1 — the end index
is at least `start_idx + 1` since every candidate occurrence is searched from
offset `start_idx + 1` and the text length exceeds `start_idx`, even when the
catalog is not in document order or markers repeat.  (The sole exception to
the original claim is the empty marker in the empty html.) -/
theorem extract_section_nonempty (html : List Char) (catalog : List (List Char))
    (m : List Char) (hne : html ≠ []) (start_idx : Nat)
    (hfind : strFind html m 0 = some start_idx) :
    ∃ body, extract_section html catalog m = some body ∧ 1 ≤ body.length := by
  obtain ⟨-, hocc, hminocc⟩ := strFind_eq_some hfind
  have hlt : start_idx < html.length := by
    cases hm : m with
    | nil =>
      have h0 : occursAt html m 0 := ⟨Nat.zero_le _, by rw [hm]; simp [List.isPrefixOf]⟩
      have hs0 : start_idx = 0 := by
        by_contra hne0
        exact hminocc 0 (Nat.zero_le _) (by omega) h0
      have hlen : html.length ≠ 0 := by
        intro h0len
        exact hne (List.eq_nil_of_length_eq_zero h0len)
      omega
    | cons c cs =>
      rcases Nat.eq_or_lt_of_le hocc.1 with heq | hlt
      · exfalso
        have h2 := hocc.2
        rw [hm, heq, List.drop_length] at h2
        simp [List.isPrefixOf] at h2
      · exact hlt
  have hge := @sectionEndIdx_ge html catalog start_idx hlt
  refine ⟨_, extract_section_eq catalog hfind, ?_⟩
  rw [List.length_take, List.length_drop]
  omega

/-- Witness for C10's amended theorem at a concrete input. -/
theorem extract_section_nonempty_w :
    ∃ body, extract_section ['a'] [] ['a'] = some body ∧ 1 ≤ body.length :=
  extract_section_nonempty ['a'] [] ['a'] (by decide) 0 (by decide)

/-- The page-range partitioner of the source (`generate_split_ranges`):
`base = total_pages // num_parts`; part `i` covers pages `i*base + 1` through
`(i+1)*base`, except the last part, which ends at `total_pages`. -/
def generate_split_ranges (total_pages num_parts : Nat) : List (Nat × Nat) :=
  let base := total_pages / num_parts
  (List.range num_parts).map fun i =>
    (i * base + 1, if i < num_parts - 1 then (i + 1) * base else total_pages)

/-- Page `p` lies in the inclusive 1-indexed range `r`. -/
def inRange (r : Nat × Nat) (p : Nat) : Prop := r.1 ≤ p ∧ p ≤ r.2

instance (r : Nat × Nat) (p : Nat) : Decidable (inRange r p) := by
  unfold inRange; infer_instance

theorem generate_split_ranges_length (tp np : Nat) :
    (generate_split_ranges tp np).length = np := by
  unfold generate_split_ranges
  simp

theorem generate_split_ranges_get {tp np i : Nat} (h : i < np) :
    (generate_split_ranges tp np)[i]? =
      some (i * (tp / np) + 1,
        if i < np - 1 then (i + 1) * (tp / np) else tp) := by
  unfold generate_split_ranges
  simp [List.getElem?_map, List.getElem?_range, h]

theorem generate_split_ranges_mem {tp np : Nat} {r : Nat × Nat} :
    r ∈ generate_split_ranges tp np ↔
      ∃ i, i < np ∧ r = (i * (tp / np) + 1,
        if i < np - 1 then (i + 1) * (tp / np) else tp) := by
  unfold generate_split_ranges
  simp only [List.mem_map, List.mem_range]
  constructor
  · rintro ⟨i, hi, rfl⟩; exact ⟨i, hi, rfl⟩
  · rintro ⟨i, hi, rfl⟩; exact ⟨i, hi, rfl⟩

/-- Existence half of the partition property: every page lies in some part. -/
theorem split_cover_exists {tp np p : Nat} (h1 : 1 ≤ np) (h2 : np ≤ tp)
    (hp1 : 1 ≤ p) (hp2 : p ≤ tp) :
    ∃ i, i < np ∧ inRange (i * (tp / np) + 1,
      if i < np - 1 then (i + 1) * (tp / np) else tp) p := by
  have hb : 1 ≤ tp / np := (Nat.one_le_div_iff (by omega)).mpr h2
  by_cases hc : p ≤ (np - 1) * (tp / np)
  · obtain ⟨q, rfl⟩ : ∃ q, p = q + 1 := ⟨p - 1, by omega⟩
    have hqlt : q / (tp / np) < np - 1 := by
      have := (Nat.div_lt_iff_lt_mul (by omega : 0 < tp / np)).mpr
        (show q < (np - 1) * (tp / np) by omega)
      exact this
    have hlow : q / (tp / np) * (tp / np) ≤ q := Nat.div_mul_le_self q (tp / np)
    have hhigh : q < (q / (tp / np) + 1) * (tp / np) := by
      have hdm := Nat.div_add_mod q (tp / np)
      have hmlt : q % (tp / np) < tp / np := Nat.mod_lt q (by omega)
      have hcomm : (tp / np) * (q / (tp / np)) = q / (tp / np) * (tp / np) :=
        Nat.mul_comm _ _
      have hexp : (q / (tp / np) + 1) * (tp / np)
          = q / (tp / np) * (tp / np) + tp / np := Nat.succ_mul _ _
      omega
    refine ⟨q / (tp / np), by omega, ?_, ?_⟩
    · simpa using Nat.succ_le_succ hlow
    · rw [if_pos hqlt]; omega
  · refine ⟨np - 1, by omega, ?_, ?_⟩
    · simp only []
      omega
    · rw [if_neg (by omega)]; exact hp2

/-- Disjointness half of the partition property: parts with distinct indices
cannot share a page. -/
theorem split_cover_disjoint {tp np p i j : Nat}
    (hij : i < j) (hj : j < np)
    (hpi : inRange (i * (tp / np) + 1,
      if i < np - 1 then (i + 1) * (tp / np) else tp) p)
    (hpj : inRange (j * (tp / np) + 1,
      if j < np - 1 then (j + 1) * (tp / np) else tp) p) :
    False := by
  have hi1 : i < np - 1 := by omega
  rw [if_pos hi1] at hpi
  have hmono : (i + 1) * (tp / np) ≤ j * (tp / np) :=
    Nat.mul_le_mul_right _ (by omega)
  obtain ⟨_, hpi2⟩ := hpi
  obtain ⟨hpj1, _⟩ := hpj
  simp only [] at hpi2 hpj1
  omega

/-- C3: for `1 ≤ numParts ≤ totalPages` the partitioner returns exactly
`numParts` ranges, computed as `start = i*base + 1` and `end = (i+1)*base` for
every part except the last (whose end is `totalPages`), with
`base = totalPages // numParts`; consecutive ranges are contiguous and
ascending, and every page of `{1, ..., totalPages}` is covered by exactly one
range (pairwise disjoint, union exact). -/
theorem generate_split_ranges_partition (tp np : Nat) (h1 : 1 ≤ np) (h2 : np ≤ tp) :
    (generate_split_ranges tp np).length = np
  ∧ (∀ i, i < np → (generate_split_ranges tp np)[i]? =
      some (i * (tp / np) + 1, if i < np - 1 then (i + 1) * (tp / np) else tp))
  ∧ (∀ i r r2, i + 1 < np →
      (generate_split_ranges tp np)[i]? = some r →
      (generate_split_ranges tp np)[i + 1]? = some r2 →
      r.1 < r2.1 ∧ r2.1 = r.2 + 1)
  ∧ (∀ p, (1 ≤ p ∧ p ≤ tp) ↔ ∃ r ∈ generate_split_ranges tp np, inRange r p)
  ∧ (∀ p, 1 ≤ p → p ≤ tp →
      ∃! i : Nat, ∃ r, (generate_split_ranges tp np)[i]? = some r ∧ inRange r p) := by
  have hb : 1 ≤ tp / np := (Nat.one_le_div_iff (by omega)).mpr h2
  refine ⟨generate_split_ranges_length tp np,
    fun i hi => generate_split_ranges_get hi, ?_, ?_, ?_⟩
  · intro i r r2 hi hr hr2
    rw [generate_split_ranges_get (show i < np by omega)] at hr
    rw [generate_split_ranges_get (show i + 1 < np by omega)] at hr2
    have hrA := Option.some.inj hr
    have hrB := Option.some.inj hr2
    subst hrA; subst hrB
    have hcase : i < np - 1 := by omega
    have hsucc : (i + 1) * (tp / np) = i * (tp / np) + tp / np := Nat.succ_mul _ _
    constructor
    · show i * (tp / np) + 1 < (i + 1) * (tp / np) + 1
      omega
    · show (i + 1) * (tp / np) + 1
        = (if i < np - 1 then (i + 1) * (tp / np) else tp) + 1
      rw [if_pos hcase]
  · intro p
    constructor
    · rintro ⟨hp1, hp2⟩
      obtain ⟨i, hi, hcov⟩ := split_cover_exists h1 h2 hp1 hp2
      exact ⟨_, generate_split_ranges_mem.mpr ⟨i, hi, rfl⟩, hcov⟩
    · rintro ⟨r, hrmem, hcov⟩
      obtain ⟨i, hi, rfl⟩ := generate_split_ranges_mem.mp hrmem
      obtain ⟨hc1, hc2⟩ := hcov
      simp only [] at hc1 hc2
      refine ⟨by omega, ?_⟩
      by_cases hcase : i < np - 1
      · rw [if_pos hcase] at hc2
        have hle1 : (i + 1) * (tp / np) ≤ np * (tp / np) :=
          Nat.mul_le_mul_right _ (by omega)
        have hle2 : np * (tp / np) ≤ tp := by
          rw [Nat.mul_comm]; exact Nat.div_mul_le_self tp np
        omega
      · rw [if_neg hcase] at hc2; exact hc2
  · intro p hp1 hp2
    obtain ⟨i, hi, hcov⟩ := split_cover_exists h1 h2 hp1 hp2
    refine ⟨i, ⟨_, generate_split_ranges_get hi, hcov⟩, ?_⟩
    rintro j ⟨r, hrj, hcovj⟩
    have hj : j < np := by
      by_contra hge
      have hnone : (generate_split_ranges tp np)[j]? = none := by
        apply List.getElem?_eq_none
        rw [generate_split_ranges_length]; omega
      rw [hnone] at hrj
      cases hrj
    rw [generate_split_ranges_get hj] at hrj
    have hrA := Option.some.inj hrj
    subst hrA
    rcases Nat.lt_trichotomy j i with hlt | heq | hlt
    · exact (split_cover_disjoint hlt hi hcovj hcov).elim
    · exact heq
    · exact (split_cover_disjoint hlt hj hcov hcovj).elim

/-- Witness for C3 at `totalPages = 5`, `numParts = 2`: the ranges are
`[(1, 2), (3, 5)]` and page 4 lies in exactly the last one. -/
theorem generate_split_ranges_partition_w :
    (generate_split_ranges 5 2).length = 2
    ∧ (∀ p, (1 ≤ p ∧ p ≤ 5) ↔ ∃ r ∈ generate_split_ranges 5 2, inRange r p) := by
  have h := generate_split_ranges_partition 5 2 (by decide) (by decide)
  exact ⟨h.1, h.2.2.2.1⟩

/-- C9: for every `totalPages ≥ 1` and `numParts ≥ 1` — including
`numParts > totalPages`, which the UI can supply since the slider maximum is
20 regardless of page count — the partitioner returns exactly `numParts`
ranges and the last range always ends at `totalPages`; when
`numParts > totalPages` the base is 0, so the first `numParts - 1` ranges are
the empty range `(1, 0)`, the final range is `(1, totalPages)`, and every
page falls in exactly one (the last) part. -/
theorem generate_split_ranges_overflow (tp np : Nat) (h1 : 1 ≤ tp) (h2 : 1 ≤ np) :
    (generate_split_ranges tp np).length = np
  ∧ (∃ s, (generate_split_ranges tp np).getLast? = some (s, tp))
  ∧ (tp < np →
      tp / np = 0
      ∧ (∀ i, i < np - 1 → (generate_split_ranges tp np)[i]? = some (1, 0))
      ∧ (generate_split_ranges tp np)[np - 1]? = some (1, tp)
      ∧ (∀ p, 1 ≤ p → p ≤ tp →
          (∃ r, (generate_split_ranges tp np)[np - 1]? = some r ∧ inRange r p)
          ∧ ∀ j : Nat, (∃ r, (generate_split_ranges tp np)[j]? = some r
              ∧ inRange r p) → j = np - 1)) := by
  refine ⟨generate_split_ranges_length tp np, ?_, ?_⟩
  · refine ⟨(np - 1) * (tp / np) + 1, ?_⟩
    rw [List.getLast?_eq_getElem?, generate_split_ranges_length,
      generate_split_ranges_get (show np - 1 < np by omega), if_neg (by omega)]
  · intro hlt
    have hb0 : tp / np = 0 := Nat.div_eq_of_lt hlt
    have hlast : (generate_split_ranges tp np)[np - 1]? = some (1, tp) := by
      rw [generate_split_ranges_get (show np - 1 < np by omega), hb0,
        if_neg (by omega)]
      simp
    refine ⟨hb0, fun i hi => ?_, hlast, fun p hp1 hp2 => ?_⟩
    · rw [generate_split_ranges_get (show i < np by omega), hb0, if_pos hi]
      simp
    · refine ⟨⟨(1, tp), hlast, hp1, hp2⟩, ?_⟩
      rintro j ⟨r, hrj, hcov⟩
      have hj : j < np := by
        by_contra hge
        have hnone : (generate_split_ranges tp np)[j]? = none := by
          apply List.getElem?_eq_none
          rw [generate_split_ranges_length]; omega
        rw [hnone] at hrj
        cases hrj
      by_contra hne
      have hj1 : j < np - 1 := by omega
      rw [generate_split_ranges_get hj, hb0, if_pos hj1] at hrj
      have hrA := Option.some.inj hrj
      subst hrA
      obtain ⟨hc1, hc2⟩ := hcov
      simp only [] at hc1 hc2
      omega

/-- Witness for C9 at `totalPages = 3`, `numParts = 5`: five ranges, the first
four empty, the last `(1, 3)`. -/
theorem generate_split_ranges_overflow_w :
    (generate_split_ranges 3 5).length = 5
    ∧ (generate_split_ranges 3 5)[4]? = some (1, 3) := by
  have h := generate_split_ranges_overflow 3 5 (by decide) (by decide)
  exact ⟨h.1, (h.2.2 (by decide)).2.2.1⟩

/-- The split-count recommender of the source
(`recommend_split_count_advanced`), as a function of the quantities the
source derives from the PDF file: the file size in bytes, the page count and
the ratio of pages containing at least one image.  Python's float arithmetic
is modelled by exact rationals. -/
def recommend_split_count_advanced (file_size_bytes : ℚ) (total_pages : Nat)
    (image_ratio : ℚ) : Nat :=
  let file_size_mb := file_size_bytes / (1024 * 1024)
  let avg_size_per_page : ℚ :=
    if total_pages ≠ 0 then file_size_mb / total_pages else 0
  let r1 : Nat :=
    if total_pages ≤ 10 then 1
    else if total_pages ≤ 30 then 3
    else if total_pages ≤ 60 then 6
    else if total_pages ≤ 100 then 8
    else if total_pages ≤ 150 then 10
    else min 15 (total_pages / 10)
  let r2 : Nat :=
    if avg_size_per_page > 3 / 2 then r1 + 2
    else if avg_size_per_page > 1 then r1 + 1
    else r1
  let r3 : Nat :=
    if image_ratio > 7 / 10 then r2 + 2
    else if image_ratio > 2 / 5 then r2 + 1
    else r2
  min r3 total_pages

/-- The claim's base tier by page count. -/
def baseTier (tp : Nat) : Nat :=
  if tp ≤ 10 then 1
  else if tp ≤ 30 then 3
  else if tp ≤ 60 then 6
  else if tp ≤ 100 then 8
  else if tp ≤ 150 then 10
  else min 15 (tp / 10)

/-- The claim's size adjustment from the average megabytes per page. -/
def sizeAdj (file_size_mb : ℚ) (tp : Nat) : Nat :=
  if file_size_mb / tp > 3 / 2 then 2
  else if file_size_mb / tp > 1 then 1
  else 0

/-- The claim's image adjustment from the image-page ratio. -/
def imageAdj (r : ℚ) : Nat :=
  if r > 7 / 10 then 2
  else if r > 2 / 5 then 1
  else 0

theorem addIf (c1 c2 : Prop) [Decidable c1] [Decidable c2] (n : Nat) :
    (if c1 then n + 2 else if c2 then n + 1 else n)
      = n + (if c1 then 2 else if c2 then 1 else 0) := by
  split_ifs <;> rfl

set_option maxRecDepth 4000 in
/-- The recommender equals the claim's closed form for any positive page
count. -/
theorem recommend_eq (bytes : ℚ) (tp : Nat) (r : ℚ) (htp : 1 ≤ tp) :
    recommend_split_count_advanced bytes tp r
      = min (baseTier tp + sizeAdj (bytes / (1024 * 1024)) tp + imageAdj r) tp := by
  have htp0 : tp ≠ 0 := by omega
  simp only [recommend_split_count_advanced, baseTier, sizeAdj, imageAdj,
    if_pos htp0]
  rw [addIf, addIf]

/-- C2: for every fileSizeBytes ≥ 0, totalPages ≥ 1 and imagePageRatio in
[0, 1], the recommended part count equals
`min (base + sizeAdj + imageAdj) totalPages` with the claim's tier tables;
the base tier for 45 pages is 6 and for 120 pages is 10, and the result
never exceeds totalPages. -/
theorem recommend_split_count_formula (bytes : ℚ) (tp : Nat) (r : ℚ)
    (hbytes : 0 ≤ bytes) (htp : 1 ≤ tp) (hr0 : 0 ≤ r) (hr1 : r ≤ 1) :
    recommend_split_count_advanced bytes tp r
      = min (baseTier tp + sizeAdj (bytes / (1024 * 1024)) tp + imageAdj r) tp
    ∧ baseTier 45 = 6
    ∧ baseTier 120 = 10
    ∧ recommend_split_count_advanced bytes tp r ≤ tp := by
  refine ⟨recommend_eq bytes tp r htp, by decide, by decide, ?_⟩
  rw [recommend_eq bytes tp r htp]
  omega

/-- Witness for C2 at fileSizeBytes = 0, totalPages = 1, imagePageRatio = 0. -/
theorem recommend_split_count_formula_w :
    recommend_split_count_advanced 0 1 0
      = min (baseTier 1 + sizeAdj (0 / (1024 * 1024)) 1 + imageAdj 0) 1
    ∧ baseTier 45 = 6
    ∧ baseTier 120 = 10
    ∧ recommend_split_count_advanced 0 1 0 ≤ 1 :=
  recommend_split_count_formula 0 1 0 (by norm_num) (by norm_num) (by norm_num)
    (by norm_num)

/-- C7 counterexample: with a 20 MiB file and image ratio 0, page counts 11
and 20 lie in the same base tier (≤ 30 → 3), yet the recommendation drops
from 5 to 3 as totalPages grows, because the average-megabytes-per-page
adjustment shrinks when the page count rises.  The claimed monotonicity
within a tier is therefore false. -/
theorem recommend_not_monotone_cex :
    baseTier 11 = baseTier 20
    ∧ recommend_split_count_advanced (20 * 1024 * 1024) 11 0 = 5
    ∧ recommend_split_count_advanced (20 * 1024 * 1024) 20 0 = 3
    ∧ ¬ recommend_split_count_advanced (20 * 1024 * 1024) 11 0
        ≤ recommend_split_count_advanced (20 * 1024 * 1024) 20 0 := by
  have hA : recommend_split_count_advanced (20 * 1024 * 1024) 11 0 = 5 := by
    norm_num [recommend_split_count_advanced]
  have hB : recommend_split_count_advanced (20 * 1024 * 1024) 20 0 = 3 := by
    norm_num [recommend_split_count_advanced]
  exact ⟨by decide, hA, hB, by rw [hA, hB]; omega⟩

/-- C7 (amended): holding fileSizeBytes and imagePageRatio fixed, the
recommender's output is monotonically non-decreasing in totalPages within the
same base tier provided the size adjustment band is also unchanged (the
average-size-per-page adjustment may otherwise shrink as totalPages grows,
which is what the counterexample exploits); and the output never exceeds
totalPages. -/
theorem recommend_monotone_within_tier (bytes r : ℚ) (tp tq : Nat)
    (htp : 1 ≤ tp) (hle : tp ≤ tq)
    (htier : baseTier tp = baseTier tq)
    (hsize : sizeAdj (bytes / (1024 * 1024)) tp
      = sizeAdj (bytes / (1024 * 1024)) tq) :
    recommend_split_count_advanced bytes tp r
      ≤ recommend_split_count_advanced bytes tq r
    ∧ recommend_split_count_advanced bytes tp r ≤ tp := by
  rw [recommend_eq bytes tp r htp, recommend_eq bytes tq r (by omega), htier,
    hsize]
  refine ⟨?_, ?_⟩ <;> omega

/-- Witness for C7's amended theorem: fileSizeBytes = 0, ratio 0, pages 11
and 20 (same tier, same size band). -/
theorem recommend_monotone_within_tier_w :
    recommend_split_count_advanced 0 11 0 ≤ recommend_split_count_advanced 0 20 0
    ∧ recommend_split_count_advanced 0 11 0 ≤ 11 :=
  recommend_monotone_within_tier 0 0 11 20 (by norm_num) (by norm_num)
    (by norm_num [baseTier]) (by norm_num [sizeAdj])

/-- Outcome of one upload attempt as seen by the retry loop: a transport (or
body-parse) exception, or an HTTP response with its status code and parsed
body. -/
inductive ApiOutcome
  | exn
  | resp (status : Nat) (body : String)

/-- The body to persist when the response status is 200, as in the source's
`if response.status_code == 200` branch; `none` otherwise. -/
def respBody200 (o : ApiOutcome) : Option String :=
  match o with
  | .exn => none
  | .resp status body => if status = 200 then some body else none

/-- Observable events of the retry loop: an upload attempt (with its 0-based
index), a sleep of a number of seconds, and a write of the result file. -/
inductive ClientEvent
  | attempt (n : Nat)
  | sleep (seconds : Nat)
  | write (body : String)
deriving DecidableEq

/-- Result of a run of the retry loop: the returned boolean and the ordered
trace of observable events. -/
structure ClientRun where
  success : Bool
  events : List ClientEvent
deriving DecidableEq

/-- One iteration structure of the source's retry loop: attempt the upload;
on a 200 response write the parsed result and return `True` at once; on any
other outcome (non-200 status or exception, the latter only warned about)
sleep 2 seconds and continue; once the attempts are exhausted return
`False`. -/
def runAttempts (oracle : Nat → ApiOutcome) : Nat → Nat → ClientRun
  | _, 0 => ⟨false, []⟩
  | att, fuel + 1 =>
    match respBody200 (oracle att) with
    | some body => ⟨true, [.attempt att, .write body]⟩
    | none =>
      let rest := runAttempts oracle (att + 1) fuel
      ⟨rest.success, .attempt att :: .sleep 2 :: rest.events⟩

/-- The source's `call_api_until_success`, starting at attempt 0 with
`max_retries` attempts available. -/
def call_api_until_success (oracle : Nat → ApiOutcome) (max_retries : Nat) :
    ClientRun :=
  runAttempts oracle 0 max_retries

def countAttempts (es : List ClientEvent) : Nat :=
  (es.filter fun e => match e with | .attempt _ => true | _ => false).length

def countWrites (es : List ClientEvent) : Nat :=
  (es.filter fun e => match e with | .write _ => true | _ => false).length

def totalSleep (es : List ClientEvent) : Nat :=
  es.foldl (fun acc e => match e with | .sleep s => acc + s | _ => acc) 0

theorem respBody200_eq_none {o : ApiOutcome}
    (h : ∀ body, o ≠ ApiOutcome.resp 200 body) : respBody200 o = none := by
  cases o with
  | exn => rfl
  | resp status body =>
    show (if status = 200 then some body else none) = none
    rw [if_neg]
    intro h200
    exact h body (by rw [h200])

/-- The failure trace: attempts `att, att+1, ...` each followed by a
2-second sleep. -/
def failTrace : Nat → Nat → List ClientEvent
  | _, 0 => []
  | att, fuel + 1 => .attempt att :: .sleep 2 :: failTrace (att + 1) fuel

theorem runAttempts_allFail {oracle : Nat → ApiOutcome}
    (hfail : ∀ n body, oracle n ≠ ApiOutcome.resp 200 body) :
    ∀ fuel att, runAttempts oracle att fuel = ⟨false, failTrace att fuel⟩ := by
  intro fuel
  induction fuel with
  | zero => intro att; rfl
  | succ n ih =>
    intro att
    simp only [runAttempts, respBody200_eq_none (hfail att), ih (att + 1),
      failTrace]

/-- C5: against an endpoint that fails on every attempt (non-200 status or
transport exception each time), `call_api_until_success` performs exactly 5
upload attempts, each non-success attempt is followed by a 2-second sleep
before the next attempt (the trace is attempt/sleep alternating), it returns
permanent failure (`False`) instead of raising, and the total sleep time is
10 seconds, hence at least the claimed 8 seconds (4 inter-attempt delays). -/
theorem call_api_retry_exhaustion (oracle : Nat → ApiOutcome)
    (hfail : ∀ n body, oracle n ≠ ApiOutcome.resp 200 body) :
    (call_api_until_success oracle 5).success = false
    ∧ (call_api_until_success oracle 5).events
        = [.attempt 0, .sleep 2, .attempt 1, .sleep 2, .attempt 2, .sleep 2,
           .attempt 3, .sleep 2, .attempt 4, .sleep 2]
    ∧ countAttempts (call_api_until_success oracle 5).events = 5
    ∧ countWrites (call_api_until_success oracle 5).events = 0
    ∧ totalSleep (call_api_until_success oracle 5).events = 10
    ∧ 8 ≤ totalSleep (call_api_until_success oracle 5).events := by
  have h : call_api_until_success oracle 5 = ⟨false, failTrace 0 5⟩ :=
    runAttempts_allFail hfail 5 0
  rw [h]
  refine ⟨rfl, by decide, by decide, by decide, by decide, by decide⟩

/-- Witness for C5: the oracle that raises on every attempt. -/
theorem call_api_retry_exhaustion_w :
    (call_api_until_success (fun _ => ApiOutcome.exn) 5).success = false
    ∧ (call_api_until_success (fun _ => ApiOutcome.exn) 5).events
        = [.attempt 0, .sleep 2, .attempt 1, .sleep 2, .attempt 2, .sleep 2,
           .attempt 3, .sleep 2, .attempt 4, .sleep 2]
    ∧ countAttempts (call_api_until_success (fun _ => ApiOutcome.exn) 5).events = 5
    ∧ countWrites (call_api_until_success (fun _ => ApiOutcome.exn) 5).events = 0
    ∧ totalSleep (call_api_until_success (fun _ => ApiOutcome.exn) 5).events = 10
    ∧ 8 ≤ totalSleep (call_api_until_success (fun _ => ApiOutcome.exn) 5).events :=
  call_api_retry_exhaustion (fun _ => ApiOutcome.exn)
    (fun _ body h => ApiOutcome.noConfusion h)

theorem runAttempts_writes (oracle : Nat → ApiOutcome) :
    ∀ fuel att,
      ((runAttempts oracle att fuel).success = false →
        countWrites (runAttempts oracle att fuel).events = 0)
      ∧ ((runAttempts oracle att fuel).success = true →
        ∃ body k, att ≤ k ∧ k < att + fuel
          ∧ respBody200 (oracle k) = some body
          ∧ countWrites (runAttempts oracle att fuel).events = 1
          ∧ (runAttempts oracle att fuel).events.getLast?
              = some (.write body)) := by
  intro fuel
  induction fuel with
  | zero =>
    intro att
    exact ⟨fun _ => rfl, fun h => by cases h⟩
  | succ n ih =>
    intro att
    cases hres : respBody200 (oracle att) with
    | some body =>
      constructor
      · intro hfalse
        rw [runAttempts, hres] at hfalse
        cases hfalse
      · intro _
        refine ⟨body, att, Nat.le_refl _, by omega, hres, ?_, ?_⟩
        · rw [runAttempts, hres]; rfl
        · rw [runAttempts, hres]; rfl
    | none =>
      obtain ⟨ihf, iht⟩ := ih (att + 1)
      constructor
      · intro hfalse
        rw [runAttempts, hres] at hfalse ⊢
        have h0 := ihf hfalse
        simp only [countWrites, List.filter] at h0 ⊢
        exact h0
      · intro htrue
        rw [runAttempts, hres] at htrue
        obtain ⟨body, k, hk1, hk2, hk3, hk4, hk5⟩ := iht htrue
        refine ⟨body, k, by omega, by omega, hk3, ?_, ?_⟩
        · rw [runAttempts, hres]
          simp only [countWrites, List.filter] at hk4 ⊢
          exact hk4
        · rw [runAttempts, hres]
          cases hev : (runAttempts oracle (att + 1) n).events with
          | nil => rw [hev] at hk5; cases hk5
          | cons x xs =>
            rw [hev] at hk5
            show (ClientEvent.attempt att :: ClientEvent.sleep 2 ::
                (runAttempts oracle (att + 1) n).events).getLast?
              = some (.write body)
            rw [hev, List.getLast?_cons_cons, List.getLast?_cons_cons]
            exact hk5

/-- C8: `call_api_until_success` writes the output file only in the branch
where an attempt returned HTTP 200, immediately before returning `True` (the
write is the final event of the run, and there is exactly one); whenever it
returns `False` it has performed no write at all, so a failed chunk leaves no
partial or stale result file from this call. -/
theorem call_api_write_atomicity (oracle : Nat → ApiOutcome) :
    ((call_api_until_success oracle 5).success = false →
      countWrites (call_api_until_success oracle 5).events = 0)
    ∧ ((call_api_until_success oracle 5).success = true →
      ∃ body k, k < 5 ∧ respBody200 (oracle k) = some body
        ∧ countWrites (call_api_until_success oracle 5).events = 1
        ∧ (call_api_until_success oracle 5).events.getLast?
            = some (.write body)) := by
  obtain ⟨hf, ht⟩ := runAttempts_writes oracle 5 0
  exact ⟨hf, fun h => by
    obtain ⟨body, k, _, hk2, hk3, hk4, hk5⟩ := ht h
    exact ⟨body, k, by omega, hk3, hk4, hk5⟩⟩

/-- Witness for C8: a first-attempt 200 response yields exactly one write, as
the final event. -/
theorem call_api_write_atomicity_w :
    ∃ body k, k < 5
      ∧ respBody200 ((fun _ => ApiOutcome.resp 200 "R") k) = some body
      ∧ countWrites
          (call_api_until_success (fun _ => ApiOutcome.resp 200 "R") 5).events = 1
      ∧ (call_api_until_success (fun _ => ApiOutcome.resp 200 "R") 5).events.getLast?
          = some (.write body) :=
  (call_api_write_atomicity (fun _ => ApiOutcome.resp 200 "R")).2 (by decide)

/-- One persisted per-chunk result file: its name in the results directory
and, when present, the `content.html` field of its JSON payload (`none`
models the `KeyError` case of a missing field). -/
structure ChunkFile where
  name : String
  html : Option String
deriving DecidableEq

/-- Code-point lexicographic order on character lists — Python's `<` on
`str`, which is what `sorted` uses. -/
def charListLt : List Char → List Char → Bool
  | [], [] => false
  | [], _ :: _ => true
  | _ :: _, [] => false
  | c :: cs, d :: ds =>
    if c.toNat < d.toNat then true
    else if d.toNat < c.toNat then false
    else charListLt cs ds

def pyStrLt (a b : String) : Bool := charListLt a.toList b.toList

/-- Insertion into an ascending list under Python's string order. -/
def insertByName (f : ChunkFile) : List ChunkFile → List ChunkFile
  | [] => [f]
  | g :: gs => if pyStrLt f.name g.name then f :: g :: gs else g :: insertByName f gs

/-- Python's `sorted` on the directory listing (lexicographic by name). -/
def pySorted : List ChunkFile → List ChunkFile
  | [] => []
  | f :: fs => insertByName f (pySorted fs)

def endsWithJson (s : String) : Bool := ".json".toList.isSuffixOf s.toList

/-- The merged envelope produced by `merge_jsons`: the fixed `api` tag, the
concatenated html, and the diagnostics emitted (one filename per result whose
`content.html` is absent). -/
structure MergedOut where
  api : String
  html : String
  warnings : List String
deriving DecidableEq

/-- One iteration of the source's merge loop: a present `content.html` is
appended followed by a newline; an absent one produces a diagnostic naming
the file and is skipped. -/
def mergeStep (acc : String × List String) (f : ChunkFile) : String × List String :=
  match f.html with
  | some h => (acc.1 ++ h ++ "\n", acc.2)
  | none => (acc.1, acc.2 ++ [f.name])

/-- The source's `merge_jsons`: iterate over `sorted(os.listdir(dir))`
restricted to names ending in `.json`, concatenating the fragments and
collecting diagnostics, then wrap in the fixed envelope. -/
def merge_jsons (files : List ChunkFile) : MergedOut :=
  let ordered := (pySorted files).filter fun f => endsWithJson f.name
  let res := ordered.foldl mergeStep ("", [])
  ⟨"2.0", res.1, res.2⟩

/-- The claim's concatenation: each present fragment followed by a newline,
in order. -/
def concatPresent : List ChunkFile → String
  | [] => ""
  | f :: fs => (match f.html with | some h => h ++ "\n" | none => "") ++ concatPresent fs

/-- The claim's diagnostics: the names of the results whose `content.html`
is absent, in order. -/
def missingNames : List ChunkFile → List String
  | [] => []
  | f :: fs => (match f.html with | some _ => [] | none => [f.name]) ++ missingNames fs

theorem mergeStep_foldl (l : List ChunkFile) : ∀ h0 w0,
    l.foldl mergeStep (h0, w0) = (h0 ++ concatPresent l, w0 ++ missingNames l) := by
  induction l with
  | nil =>
    intro h0 w0
    simp [concatPresent, missingNames, String.append_empty]
  | cons f fs ih =>
    intro h0 w0
    cases hf : f.html with
    | some h =>
      rw [List.foldl_cons]
      simp only [mergeStep, hf]
      rw [ih, concatPresent, missingNames, hf]
      simp [String.append_assoc]
    | none =>
      rw [List.foldl_cons]
      simp only [mergeStep, hf]
      rw [ih, concatPresent, missingNames, hf]
      rw [String.empty_append, List.append_assoc]

theorem missingNames_length (l : List ChunkFile) :
    (missingNames l).length = (l.filter fun f => f.html.isNone).length := by
  induction l with
  | nil => rfl
  | cons f fs ih =>
    cases hf : f.html with
    | some h => simp [missingNames, hf, List.filter, ih]
    | none => simp [missingNames, hf, List.filter, ih]

/-- C4 (code bug): the source merges in the order of plain `sorted`, which is
lexicographic, so `split_10.json` is processed before `split_2.json` and the
fragment of chunk 10 precedes the fragment of chunk 2 in the merged html —
opposite to the claimed numeric chunk-index order. -/
theorem merge_jsons_lexical_order :
    pySorted [⟨"split_2.json", some "A"⟩, ⟨"split_10.json", some "B"⟩]
      = [⟨"split_10.json", some "B"⟩, ⟨"split_2.json", some "A"⟩]
    ∧ (merge_jsons [⟨"split_2.json", some "A"⟩,
        ⟨"split_10.json", some "B"⟩]).html = "B\nA\n"
    ∧ (merge_jsons [⟨"split_2.json", some "A"⟩,
        ⟨"split_10.json", some "B"⟩]).html ≠ "A\nB\n" := by
  refine ⟨by decide, by decide, by decide⟩

/-- C6: merging appends each present `content.html` followed by a newline in
processed order, emits exactly one diagnostic per result whose `content.html`
is absent (skipping it without aborting), and wraps the result in the fixed
envelope with `api = "2.0"`; merging two results, one with
`content.html = "A"` and one missing the field, yields html `"A\n"` and
exactly one diagnostic. -/
theorem merge_jsons_envelope (files : List ChunkFile) :
    (merge_jsons files).api = "2.0"
    ∧ (merge_jsons files).html
        = concatPresent ((pySorted files).filter fun f => endsWithJson f.name)
    ∧ (merge_jsons files).warnings
        = missingNames ((pySorted files).filter fun f => endsWithJson f.name)
    ∧ (merge_jsons files).warnings.length
        = (((pySorted files).filter fun f => endsWithJson f.name).filter
            fun f => f.html.isNone).length
    ∧ merge_jsons [⟨"split_1.json", some "A"⟩, ⟨"split_2.json", none⟩]
        = ⟨"2.0", "A\n", ["split_2.json"]⟩ := by
  have hfold := mergeStep_foldl
    ((pySorted files).filter fun f => endsWithJson f.name) "" []
  refine ⟨rfl, ?_, ?_, ?_, by decide⟩
  · show ((((pySorted files).filter fun f => endsWithJson f.name).foldl
        mergeStep ("", [])).1 = _)
    rw [hfold, String.empty_append]
  · show ((((pySorted files).filter fun f => endsWithJson f.name).foldl
        mergeStep ("", [])).2 = _)
    rw [hfold]
    exact List.nil_append _
  · show ((((pySorted files).filter fun f => endsWithJson f.name).foldl
        mergeStep ("", [])).2.length = _)
    rw [hfold]
    rw [show (([] : List String) ++ missingNames
      ((pySorted files).filter fun f => endsWithJson f.name)) = missingNames
      ((pySorted files).filter fun f => endsWithJson f.name) from
      List.nil_append _]
    exact missingNames_length _

/-- Witness for C6 at a two-file listing with one missing fragment. -/
theorem merge_jsons_envelope_w :
    (merge_jsons [⟨"split_1.json", some "A"⟩, ⟨"split_2.json", none⟩]).api = "2.0"
    ∧ merge_jsons [⟨"split_1.json", some "A"⟩, ⟨"split_2.json", none⟩]
        = ⟨"2.0", "A\n", ["split_2.json"]⟩ :=
  ⟨(merge_jsons_envelope [⟨"split_1.json", some "A"⟩, ⟨"split_2.json", none⟩]).1,
   (merge_jsons_envelope [⟨"split_1.json", some "A"⟩,
      ⟨"split_2.json", none⟩]).2.2.2.2⟩
